import Mathlib

/-!
# astring: a growable C string buffer

A shallow embedding of `astring.c` / `astring.h`.

Modelling conventions.

* A `char *` is modelled by the list of bytes of the object it points into, from the
  pointer up to the end of the object.  A C string argument holding the text `t` is
  therefore the list `t ++ [NUL]`.  Reading or writing past the end of an object is
  undefined behaviour; the embedding returns `none` there.
* The length of a string that is in memory (a result of `strlen` or of `vasprintf`) is
  exact, and so is `curlen + len + 1` for the lengths of two such strings: with their
  terminators they occupy at most `2 ^ 64` bytes.  The same holds for the length
  `vsnprintf` returns, which fits an `int`.  Arithmetic on an `unsigned long` or `size_t`
  value that the caller chooses freely (the expected length given to `astring_appendf`,
  the growth increment `add_size`) is performed modulo `2 ^ 64` (`u64`), as is all of
  `astring_realloc`, which receives such values; the value `astring_realloc` returns is
  converted to `long` (`to_long`), the arguments cast to `int` are converted by `to_int`.
* The C allocator and the libc formatter are outside the repository.  Every call to the
  allocator takes its outcome as a parameter (`none` is a `NULL` return); the text that
  the formatter produces for `fmt` and its arguments is a parameter as well.
* The two logging callbacks are observed through the list of events a call emits.
-/

namespace Astring

/-- The terminator byte of a C string. -/
def NUL : Char := Char.ofNat 0

/-- An allocated object: its address and the bytes it holds (all of them, its size is
`bytes.length`). -/
structure Block where
  addr : Nat
  bytes : List Char
deriving DecidableEq, Repr

/-- A successful answer of the allocator: the address of the object and the
indeterminate bytes found in memory that the call does not initialise. -/
structure Alloc where
  addr : Nat
  junk : Nat → Char

/-- The libc call `calloc(n, 1)`: `n` zero bytes, or `NULL`. -/
def calloc (n : Nat) : Option Alloc → Option Block
  | none => none
  | some a => some ⟨a.addr, List.replicate n NUL⟩

/-- The libc call `realloc(old, n)`: the first bytes of `old` are kept at their offsets,
the bytes added are indeterminate.  On `NULL` the old object is untouched. -/
def realloc (old : Option Block) (n : Nat) : Option Alloc → Option Block
  | none => none
  | some a =>
    let keep : List Char := match old with
      | none => []
      | some b => b.bytes.take n
    some ⟨a.addr, keep ++ (List.range (n - keep.length)).map a.junk⟩

/-- The libc call `strlen`: offset of the first NUL; `none` when the object has none. -/
def strlen : List Char → Option Nat
  | [] => none
  | c :: cs => if c = NUL then some 0 else (strlen cs).map (· + 1)

/-- The bytes a bounded string read takes from `src`: at most `n`, stopping before the
first NUL; `none` when the object ends first. -/
def strnread : List Char → Nat → Option (List Char)
  | _, 0 => some []
  | [], _ + 1 => none
  | c :: cs, n + 1 => if c = NUL then some [] else (strnread cs n).map (c :: ·)

/-- Write the bytes `src` into the object `dst` at offset `off`; `none` when they do not
fit. -/
def poke (dst : List Char) (off : Nat) (src : List Char) : Option (List Char) :=
  if off + src.length ≤ dst.length then
    some (dst.take off ++ src ++ dst.drop (off + src.length))
  else none

/-- The libc call `strncat(dest, src, n)`: at most `n` bytes of `src` and then a NUL are
written at the terminator of `dest`. -/
def strncat (dest src : List Char) (n : Nat) : Option (List Char) :=
  match strlen dest with
  | none => none
  | some d =>
    match strnread src n with
    | none => none
    | some s => poke dest d (s ++ [NUL])

/-- The libc call `vsnprintf(dst + off, size, fmt, args)` where `r` is the complete text
the format and its arguments produce: at most `size - 1` bytes of `r` and then a NUL are
written, nothing at all when `size` is 0.  The value returned is the length of `r`. -/
def vsnprintf (dst : List Char) (off size : Nat) (r : List Char) : Option (List Char × Nat) :=
  if size = 0 then some (dst, r.length)
  else (poke dst off (r.take (size - 1) ++ [NUL])).map fun d => (d, r.length)

/-- An argument handed to a logging callback. -/
inductive Arg where
  | num (n : Int)
  | text (s : List Char)
deriving DecidableEq, Repr

/-- What a call does besides changing the buffer. -/
inductive Event where
  | debug (fmt : String) (args : List Arg)
  | error (fmt : String) (args : List Arg)
  | free (addr : Nat)
deriving DecidableEq, Repr

/-- The struct `astring`.  A logger field says whether a callback is installed. -/
structure astring where
  str : Option Block
  msize : Nat
  add_size : Nat
  debug_logger : Bool
  error_logger : Bool
  log_arg : Option Nat
deriving DecidableEq, Repr

/-- What a call returns, the buffer it leaves and the events it emitted. -/
structure Outcome where
  ret : Nat
  p : astring
  log : List Event
deriving DecidableEq, Repr

/-- Result of the static function `astring_realloc`. -/
structure Grown where
  ret : Int
  p : astring
  log : List Event
deriving DecidableEq, Repr

/-- The function `astring_create`, the struct itself being allocated. -/
def astring_create (sz : Nat) (calloc_res : Option Alloc) : astring :=
  let s : Option Block := if sz > 0 then calloc sz calloc_res else none
  { str := s, msize := sz, add_size := 1024,
    debug_logger := false, error_logger := false, log_arg := none }

/-- The function `astring_debuglog`. -/
def astring_debuglog (p : astring) (fmt : String) (args : List Arg) : List Event :=
  if p.debug_logger = false then [] else [Event.debug fmt args]

/-- The function `astring_errlog`. -/
def astring_errlog (p : astring) (fmt : String) (args : List Arg) : List Event :=
  if p.error_logger = false then [] else [Event.error fmt args]

/-- The function `astring_strlen`. -/
def astring_strlen (p : astring) : Option Nat :=
  match p.str with
  | none => some 0
  | some b => strlen b.bytes

/-- The function `astring_string`. -/
def astring_string (p : astring) : Option Block :=
  p.str

/-- Arithmetic in `unsigned long` and `size_t`, both of 64 bits: the value modulo
`2 ^ 64`. -/
def u64 (n : Nat) : Nat := n % 2 ^ 64

/-- Conversion of an `unsigned long` or `size_t` value to `long`. -/
def to_long (n : Nat) : Int :=
  if u64 n < 2 ^ 63 then (u64 n : Int) else (u64 n : Int) - 2 ^ 64

/-- The cast `(int)` of an `unsigned long` or `size_t` value. -/
def to_int (n : Nat) : Int :=
  if n % 2 ^ 32 < 2 ^ 31 then ((n % 2 ^ 32 : Nat) : Int)
  else ((n % 2 ^ 32 : Nat) : Int) - 2 ^ 32

/-- The static function `astring_realloc`. -/
def astring_realloc (p : astring) (curlen len : Nat) (realloc_res : Option Alloc) : Grown :=
  if u64 (curlen + len + 1) > p.msize then
    let addsz := if p.add_size > 0 then p.add_size else 1024
    let addsz := if addsz < len then len else addsz
    let addsz := if curlen = 0 then u64 (addsz + 1) else addsz
    let log1 := astring_debuglog p "reallocating %d bytes for astring\n"
      [Arg.num (to_int addsz)]
    match realloc p.str (u64 (p.msize + addsz)) realloc_res with
    | none => ⟨-1, p, log1 ++ astring_errlog p "failed allocating memory\n" []⟩
    | some new =>
      let p1 := { p with msize := u64 (p.msize + addsz), str := some new }
      ⟨to_long addsz, p1,
        log1 ++ astring_debuglog p1 "new msize is: %ld\n" [Arg.num (to_long p1.msize)]⟩
  else ⟨0, p, []⟩

/-- A write through the local pointer `b`: it reaches the buffer when `b` is `p->str`
(`own`), and only the local block otherwise. -/
def store (p : astring) (own : Bool) (b : Block) : astring :=
  if own then { p with str := some b } else p

/-- Lines 154-170 of `astring_appendf`, from the capacity test on.  `own` says whether
the local `b` is `p->str`; `len` is the expected length, a value of `unsigned long`. -/
def astring_appendf_tail (p : astring) (b : Block) (own : Bool) (curlen len : Nat)
    (fmt r : List Char) (realloc_res : Option Alloc) : Option Outcome :=
  let finish (q : astring) (b : Block) (own : Bool) (log : List Event) : Option Outcome :=
    match vsnprintf b.bytes curlen (u64 (len + 1)) r with
    | none => none
    | some (bytes, c) =>
      let log2 := if c > len then
          astring_errlog q "string longer than anticipated (%d > %d): %s\n"
            [Arg.num c, Arg.num (to_int len), Arg.text fmt]
        else []
      some ⟨curlen + c, store q own ⟨b.addr, bytes⟩, log ++ log2⟩
  if u64 (curlen + len + 1) > p.msize then
    let g := astring_realloc p curlen len realloc_res
    if g.ret < 0 then some ⟨0, g.p, g.log⟩
    else match g.p.str with
      | none => none
      | some b1 => finish g.p b1 true g.log
  else finish p b own []

/-- The function `astring_appendf`; `len` is the expected length, a value of
`unsigned long`, `fmt` is the format object, `r` the text the format and the variadic
arguments produce. -/
def astring_appendf (p : astring) (len : Nat) (fmt r : List Char)
    (calloc_res realloc_res : Option Alloc) : Option Outcome :=
  match strlen fmt with
  | none => none
  | some flen =>
    let len := if flen > len then flen else len
    match p.str with
    | none =>
      let sz := if 128 < u64 (len + 1) then u64 (len + 1) else 128
      match calloc sz calloc_res with
      | none => some ⟨0, p, astring_errlog p "Failed allocating memory.\n" []⟩
      | some b => astring_appendf_tail { p with msize := sz } b false 0 len fmt r realloc_res
    | some b =>
      match strlen b.bytes with
      | none => none
      | some curlen => astring_appendf_tail p b true curlen len fmt r realloc_res

/-- Lines 204-215 of `astring_appendf_safe`, from the capacity test on. -/
def astring_appendf_safe_tail (p : astring) (b : Block) (own : Bool) (curlen len : Nat)
    (newstr : Block) (realloc_res : Option Alloc) : Option Outcome :=
  if curlen + len + 1 > p.msize then
    let g := astring_realloc p curlen len realloc_res
    if g.ret < 0 then some ⟨0, g.p, g.log ++ [Event.free newstr.addr]⟩
    else match g.p.str with
      | none => none
      | some b1 =>
        (strncat b1.bytes newstr.bytes len).map fun bytes =>
          ⟨curlen + len, store g.p true ⟨b1.addr, bytes⟩, g.log ++ [Event.free newstr.addr]⟩
  else
    (strncat b.bytes newstr.bytes len).map fun bytes =>
      ⟨curlen + len, store p own ⟨b.addr, bytes⟩, [Event.free newstr.addr]⟩

/-- The function `astring_appendf_safe`.  `rendered` is the outcome of `vasprintf`:
`none` when it leaves `newstr` at `NULL`, otherwise the address of the temporary and the
text it holds. -/
def astring_appendf_safe (p : astring) (rendered : Option (Nat × List Char))
    (calloc_res realloc_res : Option Alloc) : Option Outcome :=
  match rendered with
  | none => some ⟨0, p, astring_errlog p "Failed allocating memory\n" []⟩
  | some (a, r) =>
    let newstr : Block := ⟨a, r ++ [NUL]⟩
    let len := r.length
    match p.str with
    | none =>
      let sz := if len + 1 < 128 then 128 else len + 1
      match calloc sz calloc_res with
      | none => some ⟨0, p, astring_errlog p "Failed allocating memory.\n" []⟩
      | some b =>
        astring_appendf_safe_tail { p with msize := sz } b false 0 len newstr realloc_res
    | some b =>
      match strlen b.bytes with
      | none => none
      | some curlen => astring_appendf_safe_tail p b true curlen len newstr realloc_res

/-- Lines 237-243 of `astring_append`, from the capacity test on. -/
def astring_append_tail (p : astring) (b : Block) (own : Bool) (curlen len : Nat)
    (str : List Char) (realloc_res : Option Alloc) : Option Outcome :=
  if curlen + len + 1 > p.msize then
    let g := astring_realloc p curlen len realloc_res
    if g.ret < 0 then some ⟨0, g.p, g.log⟩
    else match g.p.str with
      | none => none
      | some b1 =>
        (strncat b1.bytes str len).map fun bytes =>
          ⟨curlen + len, store g.p true ⟨b1.addr, bytes⟩, g.log⟩
  else
    (strncat b.bytes str len).map fun bytes =>
      ⟨curlen + len, store p own ⟨b.addr, bytes⟩, []⟩

/-- The function `astring_append`. -/
def astring_append (p : astring) (str : List Char)
    (calloc_res realloc_res : Option Alloc) : Option Outcome :=
  match strlen str with
  | none => none
  | some len =>
    match p.str with
    | none =>
      let sz := if len + 1 < 128 then 128 else len + 1
      match calloc sz calloc_res with
      | none => some ⟨0, p, astring_errlog p "Failed allocating memory.\n" []⟩
      | some b => astring_append_tail { p with msize := sz } b false 0 len str realloc_res
    | some b =>
      match strlen b.bytes with
      | none => none
      | some curlen => astring_append_tail p b true curlen len str realloc_res

/-- The text a buffer holds: the bytes of its storage before the first NUL. -/
def contents (p : astring) : Option (List Char) :=
  match astring_string p with
  | none => none
  | some b => (strlen b.bytes).map fun n => b.bytes.take n

/-- A C string object holding the text `t`. -/
def cstr (t : List Char) : List Char := t ++ [NUL]

/-- The amount by which `astring_realloc` grows the storage when it grows it. -/
def growth (p : astring) (curlen len : Nat) : Nat :=
  max (if p.add_size > 0 then p.add_size else 1024) len + (if curlen = 0 then 1 else 0)

/-- One call of the appending interface, with its arguments. -/
inductive Call where
  | append (str : List Char)
  | appendf (len : Nat) (fmt r : List Char)
  | appendf_safe (rendered : Option (Nat × List Char))

/-- Perform a call; `calloc_res` and `realloc_res` answer the allocation the call makes
for the buffer. -/
def run (p : astring) (c : Call) (calloc_res realloc_res : Option Alloc) : Option Outcome :=
  match c with
  | Call.append str => astring_append p str calloc_res realloc_res
  | Call.appendf len fmt r => astring_appendf p len fmt r calloc_res realloc_res
  | Call.appendf_safe rendered => astring_appendf_safe p rendered calloc_res realloc_res

/-- The sizes of a call with incoming length `n` stay in range: the capacity plus the
largest amount `astring_realloc` can add for `n` is below `2 ^ 63`, so that no
computation of the call in `unsigned long` wraps around and the amount added is the same
value as a `long`. -/
def in_range (p : astring) (n : Nat) : Prop :=
  p.msize + growth p 0 n < 2 ^ 63

/-- The arguments of a call are strings, and its sizes stay in range. -/
def admissible (p : astring) (c : Call) : Prop :=
  match c with
  | Call.append str => ∃ n, strlen str = some n ∧ in_range p n
  | Call.appendf len fmt _ =>
    ∃ flen, strlen fmt = some flen ∧ in_range p (if flen > len then flen else len)
  | Call.appendf_safe (some (_, r)) => in_range p r.length
  | Call.appendf_safe none => True

/-- A call together with the answers of the allocator. -/
structure Step where
  call : Call
  calloc_res : Option Alloc
  realloc_res : Option Alloc

/-- Perform the calls in order on the same buffer. -/
def run_all (p : astring) : List Step → Option astring
  | [] => some p
  | s :: ss =>
    match run p s.call s.calloc_res s.realloc_res with
    | none => none
    | some o => run_all o.p ss

/-- Whether `astring_realloc` grew the storage in the call that took the buffer `p` to the
outcome `o`: the storage was there and `msize` is larger afterwards. -/
def grew (p : astring) (o : Outcome) : Bool :=
  p.str.isSome && decide (p.msize < o.p.msize)

/-- Perform the calls in order on the same buffer and count those in which
`astring_realloc` grew the storage. -/
def run_count (p : astring) : List Step → Option (astring × Nat)
  | [] => some (p, 0)
  | s :: ss =>
    match run p s.call s.calloc_res s.realloc_res with
    | none => none
    | some o =>
      match run_count o.p ss with
      | none => none
      | some (q, k) => some (q, if grew p o then k + 1 else k)

/-- The fragments as calls of `astring_append`, every allocation answered by `a`. -/
def append_steps (frags : List (List Char)) (a : Alloc) : List Step :=
  frags.map fun t => ⟨Call.append (cstr t), some a, some a⟩

/-- The states a caller can bring a buffer into: it creates the buffer, assigns the
growth increment and the logging fields, and makes admissible calls, whose outcome is
`o`. -/
inductive Reachable : astring → Prop where
  | create (sz : Nat) (calloc_res : Option Alloc) : Reachable (astring_create sz calloc_res)
  | configure (p : astring) (g : Nat) (dbg err : Bool) (arg : Option Nat) :
      Reachable p →
      Reachable { p with add_size := g, debug_logger := dbg, error_logger := err,
                         log_arg := arg }
  | call (p : astring) (c : Call) (calloc_res realloc_res : Option Alloc) (o : Outcome) :
      Reachable p → admissible p c → run p c calloc_res realloc_res = some o →
      Reachable o.p

/-- The storage, when present, is as large as `msize` says and holds a terminator. -/
def storage_ok (p : astring) : Prop :=
  ∀ b, p.str = some b → b.bytes.length = p.msize ∧ NUL ∈ b.bytes

/-- Room for the terminator: when the storage is present, it holds a C string whose
length plus one is at most `msize`. -/
def terminator_room (p : astring) : Prop :=
  match p.str with
  | none => True
  | some b =>
    match strlen b.bytes with
    | none => False
    | some c => c + 1 ≤ p.msize

/-- An allocator answer used in examples: address `n`, indeterminate bytes all `?`. -/
def at_addr (n : Nat) : Alloc := ⟨n, fun _ => Char.ofNat 63⟩

/-- The buffer `astring_create(&p, 0)` makes. -/
def fresh_zero : astring := astring_create 0 (some (at_addr 8))

/-- A buffer of capacity 4 at address 16 holding the text `ab`, growth increment 2. -/
def small_ab : astring :=
  { str := some ⟨16, [Char.ofNat 97, Char.ofNat 98, NUL, NUL]⟩, msize := 4, add_size := 2,
    debug_logger := true, error_logger := true, log_arg := none }

/-- A buffer of capacity 8 at address 16 holding the text `ab`, growth increment 2. -/
def eight_ab : astring :=
  { str := some ⟨16, [Char.ofNat 97, Char.ofNat 98, NUL, NUL, NUL, NUL, NUL, NUL]⟩,
    msize := 8, add_size := 2, debug_logger := false, error_logger := false,
    log_arg := none }

/-- The buffer after `astring_create(&p, 4)` and `astring_append(p, "ab")`. -/
def four_ab : astring :=
  { str := some ⟨16, [Char.ofNat 97, Char.ofNat 98, NUL, NUL]⟩, msize := 4,
    add_size := 1024, debug_logger := false, error_logger := false, log_arg := none }

/-! ## Facts about the libc string primitives -/

theorem strlen_append_nul (s rest : List Char) (hs : NUL ∉ s) :
    strlen (s ++ NUL :: rest) = some s.length := by
  induction s with
  | nil => simp [strlen]
  | cons c cs ih =>
    have hc : c ≠ NUL := fun h => hs (by simp [h])
    have hcs : NUL ∉ cs := fun h => hs (by simp [h])
    simp [strlen, hc, ih hcs]

theorem strlen_split {l : List Char} {c : Nat} (h : strlen l = some c) :
    ∃ s rest, l = s ++ NUL :: rest ∧ NUL ∉ s ∧ s.length = c := by
  induction l generalizing c with
  | nil => simp [strlen] at h
  | cons x xs ih =>
    by_cases hx : x = NUL
    · simp [strlen, hx] at h
      exact ⟨[], xs, by simp [hx], by simp, by simpa using h⟩
    · simp only [strlen, hx, if_false] at h
      cases hxs : strlen xs with
      | none => simp [hxs] at h
      | some d =>
        simp [hxs] at h
        obtain ⟨s, rest, h1, h2, h3⟩ := ih hxs
        refine ⟨x :: s, rest, by simp [h1], ?_, by simp [h3, h]⟩
        intro hm
        rcases List.mem_cons.1 hm with h4 | h4
        · exact hx h4.symm
        · exact h2 h4

theorem strlen_of_mem {l : List Char} (h : NUL ∈ l) : ∃ c, strlen l = some c := by
  induction l with
  | nil => simp at h
  | cons x xs ih =>
    by_cases hx : x = NUL
    · exact ⟨0, by simp [strlen, hx]⟩
    · have hm : NUL ∈ xs := by
        rcases List.mem_cons.1 h with h4 | h4
        · exact absurd h4.symm hx
        · exact h4
      obtain ⟨c, hc⟩ := ih hm
      exact ⟨c + 1, by simp [strlen, hx, hc]⟩

theorem strlen_lt {l : List Char} {c : Nat} (h : strlen l = some c) : c + 1 ≤ l.length := by
  obtain ⟨s, rest, h1, _, h3⟩ := strlen_split h
  rw [h1]; simp; omega

theorem strlen_text (s t rest : List Char) (hs : NUL ∉ s) (ht : NUL ∉ t) :
    strlen (s ++ t ++ NUL :: rest) = some (s.length + t.length) := by
  have h : NUL ∉ s ++ t := by simp [hs, ht]
  simpa using strlen_append_nul (s ++ t) rest h

theorem strlen_cstr (t : List Char) (ht : NUL ∉ t) : strlen (cstr t) = some t.length :=
  strlen_append_nul t [] ht

theorem strnread_cstr (t rest : List Char) (ht : NUL ∉ t) (n : Nat) :
    strnread (t ++ NUL :: rest) n = some (t.take n) := by
  induction t generalizing n with
  | nil => cases n <;> simp [strnread]
  | cons c cs ih =>
    have hc : c ≠ NUL := fun h => ht (by simp [h])
    have hcs : NUL ∉ cs := fun h => ht (by simp [h])
    cases n with
    | zero => simp [strnread]
    | succ n => simp [strnread, hc, ih hcs]

theorem poke_at_end (s rest w : List Char) (x : Char) (hw : w.length ≤ rest.length + 1) :
    poke (s ++ x :: rest) s.length w = some (s ++ w ++ (x :: rest).drop w.length) := by
  unfold poke
  have : s.length + w.length ≤ (s ++ x :: rest).length := by simp; omega
  rw [if_pos this]
  simp [List.take_append_eq_append_take, List.drop_append_eq_append_drop]

theorem strncat_cstr (s rest t : List Char) (hs : NUL ∉ s) (ht : NUL ∉ t)
    (hfit : t.length ≤ rest.length) :
    strncat (s ++ NUL :: rest) (cstr t) t.length = some (s ++ t ++ NUL :: rest.drop t.length) := by
  unfold strncat cstr
  rw [strlen_append_nul s rest hs, strnread_cstr t [] ht]
  simp only [List.take_length]
  rw [poke_at_end s rest (t ++ [NUL]) NUL (by simp; omega)]
  simp

theorem vsnprintf_at_end (s rest r : List Char) (len : Nat)
    (hfit : (r.take len).length ≤ rest.length) :
    vsnprintf (s ++ NUL :: rest) s.length (len + 1) r =
      some (s ++ r.take len ++ NUL :: rest.drop (r.take len).length, r.length) := by
  unfold vsnprintf
  rw [if_neg (by omega), Nat.add_sub_cancel,
    poke_at_end s rest (r.take len ++ [NUL]) NUL (by simp at hfit ⊢; omega)]
  simp

theorem replicate_nul_split (k : Nat) :
    List.replicate (k + 1) NUL = [] ++ NUL :: List.replicate k NUL := by
  simp [List.replicate_succ]

theorem strnread_of_mem {l : List Char} (h : NUL ∈ l) (n : Nat) :
    ∃ s, strnread l n = some s ∧ s.length ≤ n := by
  induction l generalizing n with
  | nil => simp at h
  | cons x xs ih =>
    cases n with
    | zero => exact ⟨[], by simp [strnread], by simp⟩
    | succ n =>
      by_cases hx : x = NUL
      · exact ⟨[], by simp [strnread, hx], by simp⟩
      · have hm : NUL ∈ xs := by
          rcases List.mem_cons.1 h with h4 | h4
          · exact absurd h4.symm hx
          · exact h4
        obtain ⟨s, hs, hl⟩ := ih hm n
        exact ⟨x :: s, by simp [strnread, hx, hs], by simp; omega⟩

theorem poke_defined (dst src : List Char) (off : Nat) (h : off + src.length ≤ dst.length) :
    ∃ d, poke dst off src = some d := by
  unfold poke
  rw [if_pos h]
  exact ⟨_, rfl⟩

/-! ## Machine arithmetic and the growth amount -/

theorem u64_of_lt {n : Nat} (h : n < 2 ^ 64) : u64 n = n :=
  Nat.mod_eq_of_lt h

theorem u64_le (n : Nat) : u64 n ≤ n :=
  Nat.mod_le n _

theorem to_long_of_lt {n : Nat} (h : n < 2 ^ 63) : to_long n = (n : Int) := by
  have h2 : u64 n = n := u64_of_lt (by omega)
  unfold to_long
  rw [h2, if_pos h]

/-- The template-length floor of `astring_appendf` is a maximum. -/
theorem floor_eq_max (flen n : Nat) : (if flen > n then flen else n) = max flen n := by
  simp only [Nat.max_def]
  split_ifs <;> omega

theorem len_le_growth (p : astring) (curlen len : Nat) : len ≤ growth p curlen len := by
  unfold growth
  have := le_max_right (if p.add_size > 0 then p.add_size else 1024) len
  omega

theorem growth_le_zero (p : astring) (curlen len : Nat) :
    growth p curlen len ≤ growth p 0 len := by
  unfold growth
  split_ifs <;> omega

theorem growth_pos (p : astring) (curlen len : Nat) : 0 < growth p curlen len := by
  unfold growth
  have := le_max_left (if p.add_size > 0 then p.add_size else 1024) len
  split_ifs at this ⊢ <;> omega

/-! ## The growth step `astring_realloc` -/

theorem astring_realloc_nogrow (p : astring) (curlen len : Nat) (c2 : Option Alloc)
    (h : ¬ u64 (curlen + len + 1) > p.msize) :
    astring_realloc p curlen len c2 = ⟨0, p, []⟩ := by
  unfold astring_realloc
  rw [if_neg h]

theorem astring_realloc_fail (p : astring) (curlen len : Nat)
    (h : u64 (curlen + len + 1) > p.msize) :
    (astring_realloc p curlen len none).ret = -1 ∧ (astring_realloc p curlen len none).p = p := by
  constructor <;>
  · unfold astring_realloc
    rw [if_pos h]
    rfl

/-- The amount `addsz` that `astring_realloc` computes is `growth` when nothing wraps. -/
theorem addsz_eq_growth (p : astring) (curlen len : Nat)
    (hr : growth p curlen len < 2 ^ 64) :
    (if curlen = 0 then
        u64 ((if (if p.add_size > 0 then p.add_size else 1024) < len then len
          else (if p.add_size > 0 then p.add_size else 1024)) + 1)
      else (if (if p.add_size > 0 then p.add_size else 1024) < len then len
          else (if p.add_size > 0 then p.add_size else 1024))) = growth p curlen len := by
  unfold growth at hr ⊢
  simp only [Nat.max_def] at hr ⊢
  by_cases hc : curlen = 0
  · simp only [hc, if_true] at hr ⊢
    rw [u64_of_lt (by split_ifs at hr ⊢ <;> omega)]
    split_ifs <;> omega
  · simp only [hc, if_false]
    split_ifs <;> omega

/-- What `astring_realloc` returns and leaves when it has to grow the storage, `realloc`
succeeds and the sizes stay in range. -/
theorem astring_realloc_amount (p : astring) (curlen len : Nat) (a : Alloc)
    (h : curlen + len + 1 > p.msize) (hsum : curlen + len + 1 < 2 ^ 64)
    (hr : p.msize + growth p curlen len < 2 ^ 63) :
    (astring_realloc p curlen len (some a)).ret = (growth p curlen len : Nat) ∧
    (astring_realloc p curlen len (some a)).p.msize = p.msize + growth p curlen len ∧
    (astring_realloc p curlen len (some a)).p.add_size = p.add_size ∧
    (astring_realloc p curlen len (some a)).p.str =
      realloc p.str (p.msize + growth p curlen len) (some a) := by
  have hg := addsz_eq_growth p curlen len (by omega)
  have hguard : u64 (curlen + len + 1) > p.msize := by rw [u64_of_lt hsum]; exact h
  have hm : u64 (p.msize + growth p curlen len) = p.msize + growth p curlen len :=
    u64_of_lt (by omega)
  have hl : to_long (growth p curlen len) = (growth p curlen len : Int) :=
    to_long_of_lt (by omega)
  refine ⟨?_, ?_, ?_, ?_⟩ <;>
  · unfold astring_realloc
    rw [if_pos hguard]
    simp only [realloc, hg, hm, hl]

theorem astring_realloc_grow (p : astring) (b : Block) (curlen len : Nat) (a : Alloc)
    (hstr : p.str = some b) (hcap : b.bytes.length = p.msize)
    (h : curlen + len + 1 > p.msize) (hsum : curlen + len + 1 < 2 ^ 64)
    (hr : p.msize + growth p curlen len < 2 ^ 63) :
    ∃ junk, junk.length = growth p curlen len ∧
      (astring_realloc p curlen len (some a)).ret = (growth p curlen len : Nat) ∧
      (astring_realloc p curlen len (some a)).p =
         { p with msize := p.msize + growth p curlen len,
                  str := some ⟨a.addr, b.bytes ++ junk⟩ } := by
  have hg := addsz_eq_growth p curlen len (by omega)
  have hguard : u64 (curlen + len + 1) > p.msize := by rw [u64_of_lt hsum]; exact h
  have hm : u64 (p.msize + growth p curlen len) = p.msize + growth p curlen len :=
    u64_of_lt (by omega)
  have hl : to_long (growth p curlen len) = (growth p curlen len : Int) :=
    to_long_of_lt (by omega)
  have ht : List.take (p.msize + growth p curlen len) b.bytes = b.bytes :=
    List.take_of_length_le (by omega)
  refine ⟨(List.range (growth p curlen len)).map a.junk, by simp, ?_, ?_⟩
  · unfold astring_realloc
    rw [if_pos hguard]
    simp only [realloc, hstr, hg, hl]
  · unfold astring_realloc
    rw [if_pos hguard]
    simp only [realloc, hstr, hg, hm, ht, hcap, Nat.add_sub_cancel_left]

/-! ## Appending to a buffer whose storage is present -/

theorem contents_of_text (q : astring) (addr : Nat) (s t rest : List Char)
    (hstr : q.str = some ⟨addr, s ++ t ++ NUL :: rest⟩) (hs : NUL ∉ s) (ht : NUL ∉ t) :
    contents q = some (s ++ t) ∧ astring_strlen q = some (s.length + t.length) := by
  have hl := strlen_text s t rest hs ht
  constructor
  · simp only [contents, astring_string, hstr, hl, Option.map_some']
    rw [← List.length_append, List.take_left']
    rfl
  · simp only [astring_strlen, hstr, hl]

theorem strncat_norm (s rest t srest : List Char) (n : Nat) (hs : NUL ∉ s) (ht : NUL ∉ t)
    (hfit : (t.take n).length ≤ rest.length) :
    strncat (s ++ NUL :: rest) (t ++ NUL :: srest) n =
      some (s ++ t.take n ++ NUL :: rest.drop (t.take n).length) := by
  unfold strncat
  rw [strlen_append_nul s rest hs, strnread_cstr t srest ht]
  simp only []
  rw [poke_at_end s rest (t.take n ++ [NUL]) NUL (by
    simp only [List.length_append, List.length_singleton]
    omega)]
  simp

/-- Lines 237-243 of `astring_append` (and, through `appendf_safe_tail_eq`, lines 204-215
of `astring_appendf_safe`) on a buffer whose storage is present, when the sizes stay in
range and `realloc` succeeds if it is called. -/
theorem astring_append_tail_present (p : astring) (b : Block) (s rest t srest : List Char)
    (len : Nat) (c2 : Option Alloc)
    (hstr : p.str = some b) (hb : b.bytes = s ++ NUL :: rest) (hs : NUL ∉ s)
    (hcap : b.bytes.length = p.msize) (ht : NUL ∉ t)
    (hrange : p.msize + growth p s.length len < 2 ^ 63)
    (hc2 : s.length + len + 1 > p.msize → ∃ a, c2 = some a) :
    ∃ o addr rest1, astring_append_tail p b true s.length len (t ++ NUL :: srest) c2 = some o ∧
      o.ret = s.length + len ∧
      o.p.str = some ⟨addr, s ++ t.take len ++ NUL :: rest1⟩ ∧
      (s ++ t.take len ++ NUL :: rest1).length = o.p.msize ∧
      o.p.msize = (if s.length + len + 1 > p.msize
        then p.msize + growth p s.length len else p.msize) ∧
      o.p.add_size = p.add_size := by
  have hlen : s.length + 1 + rest.length = p.msize := by
    rw [← hcap, hb]; simp; omega
  have htk : (t.take len).length ≤ len := by simp
  have hge := len_le_growth p s.length len
  unfold astring_append_tail
  by_cases h : s.length + len + 1 > p.msize
  · obtain ⟨a, rfl⟩ := hc2 h
    obtain ⟨junk, hj, hret, hp⟩ :=
      astring_realloc_grow p b s.length len a hstr hcap h (by omega) hrange
    rw [if_pos h]
    simp only [hret, hp, hb]
    have hnn : ¬ ((growth p s.length len : Nat) : Int) < 0 := by omega
    rw [if_neg hnn]
    have hcat := strncat_norm s (rest ++ junk) t srest len hs ht (by simp at htk ⊢; omega)
    simp only [List.append_assoc, List.cons_append] at hcat ⊢
    rw [hcat]
    refine ⟨_, a.addr, (rest ++ junk).drop (t.take len).length, rfl, rfl, ?_, ?_, ?_, ?_⟩
    · simp [store]
    · simp [store]; omega
    · simp [store]; split_ifs <;> omega
    · simp [store]
  · rw [if_neg h]
    have hcat := strncat_norm s rest t srest len hs ht (by omega)
    rw [hb, hcat]
    refine ⟨_, b.addr, rest.drop (t.take len).length, rfl, rfl, ?_, ?_, ?_, ?_⟩
    · simp [store]
    · simp [store]; omega
    · simp [store]; split_ifs <;> omega
    · simp [store]

/-- What a successful `astring_append` does to a buffer whose storage is present, when
the sizes stay in range. -/
theorem astring_append_present (p : astring) (b : Block) (s rest t : List Char)
    (c1 : Option Alloc) (a : Alloc)
    (hstr : p.str = some b) (hb : b.bytes = s ++ NUL :: rest) (hs : NUL ∉ s)
    (hcap : b.bytes.length = p.msize) (ht : NUL ∉ t)
    (hrange : p.msize + growth p s.length t.length < 2 ^ 63) :
    ∃ o addr rest1, astring_append p (cstr t) c1 (some a) = some o ∧
      o.ret = s.length + t.length ∧
      o.p.str = some ⟨addr, s ++ t ++ NUL :: rest1⟩ ∧
      (s ++ t ++ NUL :: rest1).length = o.p.msize ∧
      p.msize ≤ o.p.msize ∧ o.p.add_size = p.add_size ∧
      o.p.msize = (if s.length + t.length + 1 > p.msize
        then p.msize + growth p s.length t.length else p.msize) := by
  obtain ⟨o, addr, rest1, ho, hret, hstr1, hcap1, hm, hadd⟩ :=
    astring_append_tail_present p b s rest t [] t.length (some a) hstr hb hs hcap ht hrange
      (fun _ => ⟨a, rfl⟩)
  rw [List.take_length] at hstr1 hcap1
  refine ⟨o, addr, rest1, ?_, hret, hstr1, hcap1, ?_, hadd, hm⟩
  · unfold astring_append
    simp only [strlen_cstr t ht, hstr, hb, strlen_append_nul s rest hs]
    exact ho
  · rw [hm]
    split_ifs <;> omega

theorem vsnprintf_at_end2 (s rest r : List Char) (len : Nat)
    (hfit : (r.take len).length ≤ rest.length) (hl : len + 1 < 2 ^ 64) :
    vsnprintf (s ++ NUL :: rest) s.length (u64 (len + 1)) r =
      some (s ++ r.take len ++ NUL :: rest.drop (r.take len).length, r.length) := by
  rw [u64_of_lt hl]
  exact vsnprintf_at_end s rest r len hfit

/-- Lines 154-170 of `astring_appendf` on a buffer whose storage is present, when the
sizes stay in range and `realloc` succeeds if it is called. -/
theorem astring_appendf_tail_present (p : astring) (b : Block) (s rest fmt r : List Char)
    (len : Nat) (c2 : Option Alloc)
    (hstr : p.str = some b) (hb : b.bytes = s ++ NUL :: rest)
    (hcap : b.bytes.length = p.msize)
    (hrange : p.msize + growth p s.length len < 2 ^ 63)
    (hc2 : s.length + len + 1 > p.msize → ∃ a, c2 = some a) :
    ∃ o addr rest1, astring_appendf_tail p b true s.length len fmt r c2 = some o ∧
      o.ret = s.length + r.length ∧
      o.p.str = some ⟨addr, s ++ r.take len ++ NUL :: rest1⟩ ∧
      (s ++ r.take len ++ NUL :: rest1).length = o.p.msize ∧
      o.p.msize = (if s.length + len + 1 > p.msize
        then p.msize + growth p s.length len else p.msize) ∧
      o.p.add_size = p.add_size := by
  have hlen : s.length + 1 + rest.length = p.msize := by
    rw [← hcap, hb]; simp; omega
  have htk : (r.take len).length ≤ len := by simp
  have hge := len_le_growth p s.length len
  have hu : u64 (s.length + len + 1) = s.length + len + 1 := u64_of_lt (by omega)
  unfold astring_appendf_tail
  simp only [hu]
  by_cases h : s.length + len + 1 > p.msize
  · obtain ⟨a, rfl⟩ := hc2 h
    obtain ⟨junk, hj, hret, hp⟩ :=
      astring_realloc_grow p b s.length len a hstr hcap h (by omega) hrange
    rw [if_pos h]
    simp only [hret, hp, hb]
    have hnn : ¬ ((growth p s.length len : Nat) : Int) < 0 := by omega
    rw [if_neg hnn]
    have hv := vsnprintf_at_end2 s (rest ++ junk) r len (by simp at htk ⊢; omega) (by omega)
    simp only [List.append_assoc, List.cons_append] at hv ⊢
    simp only [hv]
    refine ⟨_, a.addr, (rest ++ junk).drop (r.take len).length, rfl, rfl, ?_, ?_, ?_, ?_⟩
    · simp [store]
    · simp [store]; omega
    · simp [store]; split_ifs <;> omega
    · simp [store]
  · rw [if_neg h]
    have hv := vsnprintf_at_end2 s rest r len (by omega) (by omega)
    simp only [hb, hv]
    refine ⟨_, b.addr, rest.drop (r.take len).length, rfl, rfl, ?_, ?_, ?_, ?_⟩
    · simp [store]
    · simp [store]; omega
    · simp [store]; split_ifs <;> omega
    · simp [store]

theorem appendf_safe_tail_eq (p : astring) (b : Block) (own : Bool) (curlen len tmp : Nat)
    (str : List Char) (c2 : Option Alloc) :
    (astring_appendf_safe_tail p b own curlen len ⟨tmp, str⟩ c2).map (fun o => (o.ret, o.p)) =
      (astring_append_tail p b own curlen len str c2).map (fun o => (o.ret, o.p)) := by
  unfold astring_appendf_safe_tail astring_append_tail
  by_cases h : curlen + len + 1 > p.msize
  · rw [if_pos h, if_pos h]
    by_cases hneg : (astring_realloc p curlen len c2).ret < 0
    · simp only [hneg, if_true, Option.map_some']
    · simp only [hneg, if_false]
      cases (astring_realloc p curlen len c2).p.str with
      | none => rfl
      | some b1 => simp only []; cases strncat b1.bytes str len <;> rfl
  · rw [if_neg h, if_neg h]
    cases strncat b.bytes str len <;> rfl

/-! ## The first allocation -/

theorem first_size_eq (n : Nat) : (if n + 1 < 128 then 128 else n + 1) = max (n + 1) 128 := by
  simp only [Nat.max_def]
  split_ifs <;> omega

theorem first_size_eq2 (n : Nat) : (if 128 < n then n else 128) = max n 128 := by
  simp only [Nat.max_def]
  split_ifs <;> omega

/-- What `astring_append` does when the storage is absent and `calloc` succeeds. -/
theorem astring_append_absent (p : astring) (t srest : List Char) (a : Alloc)
    (c2 : Option Alloc) (hstr : p.str = none) (ht : NUL ∉ t) :
    astring_append p (t ++ NUL :: srest) (some a) c2 =
      some ⟨t.length, { p with msize := max (t.length + 1) 128 }, []⟩ := by
  unfold astring_append
  simp only [strlen_append_nul t srest ht, hstr, calloc, first_size_eq]
  obtain ⟨k, hk⟩ : ∃ k, max (t.length + 1) 128 = k + 1 :=
    ⟨max (t.length + 1) 128 - 1, by have := le_max_right (t.length + 1) 128; omega⟩
  have hle := le_max_left (t.length + 1) 128
  unfold astring_append_tail
  rw [if_neg (by simp only []; omega)]
  simp only [hk, replicate_nul_split]
  have hcat := strncat_norm [] (List.replicate k NUL) t srest t.length (by simp) ht
    (by simp; omega)
  simp only [List.nil_append, List.take_length] at hcat ⊢
  rw [hcat]
  simp [store, hstr]

/-- What `astring_appendf` does when the storage is absent and `calloc` succeeds,
whatever the size of the expected length after the template-length floor. -/
theorem astring_appendf_absent (p : astring) (n flen : Nat) (fmt r : List Char) (a : Alloc)
    (c2 : Option Alloc) (hstr : p.str = none) (hfmt : strlen fmt = some flen) :
    ∃ log, astring_appendf p n fmt r (some a) c2 =
      some ⟨r.length,
        { p with msize := max (u64 ((if flen > n then flen else n) + 1)) 128 }, log⟩ := by
  unfold astring_appendf
  simp only [hfmt, hstr, calloc, first_size_eq2]
  generalize (if flen > n then flen else n) = L
  have hle := le_max_left (u64 (L + 1)) 128
  have hle2 := le_max_right (u64 (L + 1)) 128
  unfold astring_appendf_tail
  simp only [Nat.zero_add]
  rw [if_neg (by omega)]
  by_cases hz : u64 (L + 1) = 0
  · simp only [vsnprintf, hz, if_true]
    exact ⟨_, rfl⟩
  · have htk : (r.take (u64 (L + 1) - 1)).length ≤ u64 (L + 1) - 1 := by simp
    obtain ⟨d, hd⟩ := poke_defined (List.replicate (max (u64 (L + 1)) 128) NUL)
      (r.take (u64 (L + 1) - 1) ++ [NUL]) 0 (by
        simp only [List.length_replicate, List.length_append, List.length_singleton,
          Nat.zero_add]
        omega)
    simp only [vsnprintf, if_neg hz, hd, Option.map_some']
    exact ⟨_, rfl⟩

/-- What `astring_appendf_safe` does when the storage is absent and `calloc` succeeds. -/
theorem astring_appendf_safe_absent (p : astring) (tmp : Nat) (r : List Char) (a : Alloc)
    (c2 : Option Alloc) (hstr : p.str = none) :
    astring_appendf_safe p (some (tmp, r)) (some a) c2 =
      some ⟨r.length, { p with msize := max (r.length + 1) 128 }, [Event.free tmp]⟩ := by
  unfold astring_appendf_safe
  simp only [hstr, calloc, first_size_eq]
  obtain ⟨k, hk⟩ : ∃ k, max (r.length + 1) 128 = k + 1 :=
    ⟨max (r.length + 1) 128 - 1, by have := le_max_right (r.length + 1) 128; omega⟩
  have hle := le_max_left (r.length + 1) 128
  unfold astring_appendf_safe_tail
  rw [if_neg (by simp only []; omega)]
  obtain ⟨s, hs, hsl⟩ := strnread_of_mem (l := r ++ [NUL]) (by simp) r.length
  obtain ⟨d, hd⟩ := poke_defined (List.replicate (k + 1) NUL) (s ++ [NUL]) 0
    (by simp; omega)
  have hz : strlen (List.replicate (k + 1) NUL) = some 0 := by
    simp [List.replicate_succ, strlen]
  simp only [hk, strncat, hz, hs, hd, Option.map_some']
  simp [store, hstr]

/-- With the storage absent every call on strings is defined and leaves it absent: the
block that the first allocation obtains is written through the local pointer only. -/
theorem run_absent_defined (p : astring) (c : Call) (c1 c2 : Option Alloc)
    (hstr : p.str = none) (hadm : admissible p c) :
    ∃ o, run p c c1 c2 = some o ∧ o.p.str = none := by
  cases c with
  | append str =>
    obtain ⟨n, hn, _⟩ := hadm
    obtain ⟨t, srest, rfl, ht, _⟩ := strlen_split hn
    cases c1 with
    | none =>
      refine ⟨⟨0, p, astring_errlog p "Failed allocating memory.\n" []⟩, ?_, hstr⟩
      simp only [run, astring_append, strlen_append_nul t srest ht, hstr, calloc]
    | some a => exact ⟨_, astring_append_absent p t srest a c2 hstr ht, hstr⟩
  | appendf len fmt r =>
    obtain ⟨flen, hf, _⟩ := hadm
    cases c1 with
    | none =>
      refine ⟨⟨0, p, astring_errlog p "Failed allocating memory.\n" []⟩, ?_, hstr⟩
      simp only [run, astring_appendf, hf, hstr, calloc]
    | some a =>
      obtain ⟨log, h⟩ := astring_appendf_absent p len flen fmt r a c2 hstr hf
      exact ⟨_, h, hstr⟩
  | appendf_safe rendered =>
    cases rendered with
    | none => exact ⟨⟨0, p, astring_errlog p "Failed allocating memory\n" []⟩, rfl, hstr⟩
    | some ar =>
      obtain ⟨tmp, r⟩ := ar
      cases c1 with
      | none =>
        refine ⟨⟨0, p, astring_errlog p "Failed allocating memory.\n" []⟩, ?_, hstr⟩
        simp only [run, astring_appendf_safe, hstr, calloc]
      | some a => exact ⟨_, astring_appendf_safe_absent p tmp r a c2 hstr, hstr⟩

/-! ## The storage invariant -/

theorem storage_ok_of_absent (q : astring) (h : q.str = none) : storage_ok q := by
  intro b hb
  rw [h] at hb
  cases hb

theorem storage_ok_of_norm (q : astring) (addr : Nat) (bytes : List Char)
    (hstr : q.str = some ⟨addr, bytes⟩) (hlen : bytes.length = q.msize)
    (hmem : NUL ∈ bytes) : storage_ok q := by
  intro b hb
  rw [hstr] at hb
  simp only [Option.some.injEq] at hb
  subst hb
  exact ⟨hlen, hmem⟩

theorem astring_append_tail_fail (p : astring) (b : Block) (own : Bool) (curlen len : Nat)
    (str : List Char) (h : curlen + len + 1 > p.msize) (hsum : curlen + len + 1 < 2 ^ 64) :
    ∃ log, astring_append_tail p b own curlen len str none = some ⟨0, p, log⟩ := by
  obtain ⟨hret, hp⟩ := astring_realloc_fail p curlen len (by rw [u64_of_lt hsum]; exact h)
  simp only [astring_append_tail, if_pos h, hret, hp]
  exact ⟨_, rfl⟩

theorem astring_appendf_tail_fail (p : astring) (b : Block) (own : Bool) (curlen len : Nat)
    (fmt r : List Char) (h : u64 (curlen + len + 1) > p.msize) :
    ∃ log, astring_appendf_tail p b own curlen len fmt r none = some ⟨0, p, log⟩ := by
  obtain ⟨hret, hp⟩ := astring_realloc_fail p curlen len h
  simp only [astring_appendf_tail, if_pos h, hret, hp]
  exact ⟨_, rfl⟩

/-- Lines 237-243 of `astring_append` on a well-formed buffer with sizes in range: the
writes stay inside the storage and the buffer stays well formed, whatever the allocator
answers. -/
theorem astring_append_tail_safe (p : astring) (b : Block) (s rest t srest : List Char)
    (len : Nat) (c2 : Option Alloc)
    (hstr : p.str = some b) (hb : b.bytes = s ++ NUL :: rest) (hs : NUL ∉ s)
    (hcap : b.bytes.length = p.msize) (ht : NUL ∉ t)
    (hrange : p.msize + growth p s.length len < 2 ^ 63) :
    ∃ o, astring_append_tail p b true s.length len (t ++ NUL :: srest) c2 = some o ∧
      storage_ok o.p ∧ p.msize ≤ o.p.msize := by
  have hlen : s.length + 1 + rest.length = p.msize := by
    rw [← hcap, hb]; simp; omega
  have hge := len_le_growth p s.length len
  have hokp : storage_ok p := by
    intro b1 hb1
    rw [hstr] at hb1
    simp only [Option.some.injEq] at hb1
    subst hb1
    exact ⟨hcap, by rw [hb]; simp⟩
  by_cases hfail : s.length + len + 1 > p.msize ∧ c2 = none
  · obtain ⟨hg, rfl⟩ := hfail
    obtain ⟨log, h⟩ := astring_append_tail_fail p b true s.length len (t ++ NUL :: srest) hg
      (by omega)
    exact ⟨_, h, hokp, le_refl _⟩
  · obtain ⟨o, addr, rest1, ho, _, hstr1, hcap1, hm, _⟩ :=
      astring_append_tail_present p b s rest t srest len c2 hstr hb hs hcap ht hrange (by
        intro hg
        cases c2 with
        | none => exact absurd ⟨hg, rfl⟩ hfail
        | some a => exact ⟨a, rfl⟩)
    refine ⟨o, ho, storage_ok_of_norm o.p addr _ hstr1 hcap1 (by simp), ?_⟩
    rw [hm]
    split_ifs <;> omega

/-- Lines 154-170 of `astring_appendf` on a well-formed buffer with sizes in range. -/
theorem astring_appendf_tail_safe (p : astring) (b : Block) (s rest fmt r : List Char)
    (len : Nat) (c2 : Option Alloc)
    (hstr : p.str = some b) (hb : b.bytes = s ++ NUL :: rest)
    (hcap : b.bytes.length = p.msize)
    (hrange : p.msize + growth p s.length len < 2 ^ 63) :
    ∃ o, astring_appendf_tail p b true s.length len fmt r c2 = some o ∧
      storage_ok o.p ∧ p.msize ≤ o.p.msize := by
  have hlen : s.length + 1 + rest.length = p.msize := by
    rw [← hcap, hb]; simp; omega
  have hge := len_le_growth p s.length len
  have hokp : storage_ok p := by
    intro b1 hb1
    rw [hstr] at hb1
    simp only [Option.some.injEq] at hb1
    subst hb1
    exact ⟨hcap, by rw [hb]; simp⟩
  by_cases hfail : s.length + len + 1 > p.msize ∧ c2 = none
  · obtain ⟨hg, rfl⟩ := hfail
    obtain ⟨log, h⟩ := astring_appendf_tail_fail p b true s.length len fmt r
      (by rw [u64_of_lt (by omega)]; exact hg)
    exact ⟨_, h, hokp, le_refl _⟩
  · obtain ⟨o, addr, rest1, ho, _, hstr1, hcap1, hm, _⟩ :=
      astring_appendf_tail_present p b s rest fmt r len c2 hstr hb hcap hrange (by
        intro hg
        cases c2 with
        | none => exact absurd ⟨hg, rfl⟩ hfail
        | some a => exact ⟨a, rfl⟩)
    refine ⟨o, ho, storage_ok_of_norm o.p addr _ hstr1 hcap1 (by simp), ?_⟩
    rw [hm]
    split_ifs <;> omega

/-- Lines 204-215 of `astring_appendf_safe` on a well-formed buffer with sizes in
range. -/
theorem astring_appendf_safe_tail_safe (p : astring) (b : Block) (s rest t srest : List Char)
    (len tmp : Nat) (c2 : Option Alloc)
    (hstr : p.str = some b) (hb : b.bytes = s ++ NUL :: rest) (hs : NUL ∉ s)
    (hcap : b.bytes.length = p.msize) (ht : NUL ∉ t)
    (hrange : p.msize + growth p s.length len < 2 ^ 63) :
    ∃ o, astring_appendf_safe_tail p b true s.length len ⟨tmp, t ++ NUL :: srest⟩ c2 = some o ∧
      storage_ok o.p ∧ p.msize ≤ o.p.msize := by
  obtain ⟨o1, ho1, hok1, hm1⟩ :=
    astring_append_tail_safe p b s rest t srest len c2 hstr hb hs hcap ht hrange
  have heq := appendf_safe_tail_eq p b true s.length len tmp (t ++ NUL :: srest) c2
  rw [ho1] at heq
  cases hsafe : astring_appendf_safe_tail p b true s.length len ⟨tmp, t ++ NUL :: srest⟩ c2 with
  | none => simp [hsafe] at heq
  | some o =>
    simp only [hsafe, Option.map_some', Option.some.injEq, Prod.mk.injEq] at heq
    refine ⟨o, rfl, ?_, ?_⟩
    · rw [heq.2]; exact hok1
    · rw [heq.2]; exact hm1

/-- From a well-formed buffer every admissible call is defined: its reads and writes stay
inside the objects; the buffer it leaves is well formed and, when the storage was
present, not smaller. -/
theorem run_safe (p : astring) (c : Call) (c1 c2 : Option Alloc)
    (hok : storage_ok p) (hadm : admissible p c) :
    ∃ o, run p c c1 c2 = some o ∧ storage_ok o.p ∧ (p.str ≠ none → p.msize ≤ o.p.msize) := by
  cases hstr : p.str with
  | none =>
    obtain ⟨o, ho, hnone⟩ := run_absent_defined p c c1 c2 hstr hadm
    exact ⟨o, ho, storage_ok_of_absent _ hnone, fun h => absurd rfl h⟩
  | some b =>
    obtain ⟨hcap, hmem⟩ := hok b hstr
    obtain ⟨cur, hcur⟩ := strlen_of_mem hmem
    obtain ⟨s, rest, hb, hs, hsl⟩ := strlen_split hcur
    subst hsl
    cases c with
    | append str =>
      obtain ⟨n, hn, hr⟩ := hadm
      obtain ⟨t, srest, rfl, ht, htl⟩ := strlen_split hn
      have hz := growth_le_zero p s.length n
      unfold in_range at hr
      obtain ⟨o, ho, h1, h2⟩ := astring_append_tail_safe p b s rest t srest n c2 hstr hb hs
        hcap ht (by omega)
      refine ⟨o, ?_, h1, fun _ => h2⟩
      simp only [run, astring_append, hn, hstr, hcur]
      exact ho
    | appendf len fmt r =>
      obtain ⟨flen, hf, hr⟩ := hadm
      have hz := growth_le_zero p s.length (if flen > len then flen else len)
      unfold in_range at hr
      obtain ⟨o, ho, h1, h2⟩ := astring_appendf_tail_safe p b s rest fmt r
        (if flen > len then flen else len) c2 hstr hb hcap (by omega)
      refine ⟨o, ?_, h1, fun _ => h2⟩
      simp only [run, astring_appendf, hf, hstr, hcur]
      exact ho
    | appendf_safe rendered =>
      cases rendered with
      | none =>
        exact ⟨⟨0, p, astring_errlog p "Failed allocating memory\n" []⟩, rfl, hok,
          fun _ => le_refl _⟩
      | some ar =>
        obtain ⟨tmp, r⟩ := ar
        have hr : in_range p r.length := hadm
        obtain ⟨k, hk⟩ := strlen_of_mem (l := r ++ [NUL]) (by simp)
        obtain ⟨t, srest, hsplit, ht, _⟩ := strlen_split hk
        have hz := growth_le_zero p s.length r.length
        unfold in_range at hr
        obtain ⟨o, ho, h1, h2⟩ := astring_appendf_safe_tail_safe p b s rest t srest r.length
          tmp c2 hstr hb hs hcap ht (by omega)
        refine ⟨o, ?_, h1, fun _ => h2⟩
        simp only [run, astring_appendf_safe, hstr, hcur, hsplit]
        exact ho

theorem reachable_storage_ok (p : astring) (h : Reachable p) : storage_ok p := by
  induction h with
  | create sz c1 =>
    intro b hb
    unfold astring_create at hb
    simp only [] at hb
    by_cases hsz : sz > 0
    · rw [if_pos hsz] at hb
      cases c1 with
      | none => simp [calloc] at hb
      | some a =>
        simp only [calloc, Option.some.injEq] at hb
        subst hb
        simp [astring_create]
        omega
    · rw [if_neg hsz] at hb
      cases hb
  | configure p g dbg err arg _ ih =>
    intro b hb
    exact ih b hb
  | call p c c1 c2 o _ hadm hrun ih =>
    obtain ⟨o1, ho1, hok1, _⟩ := run_safe p c c1 c2 ih hadm
    rw [hrun] at ho1
    simp only [Option.some.injEq] at ho1
    rw [ho1]
    exact hok1

theorem terminator_room_of_ok (p : astring) (h : storage_ok p) : terminator_room p := by
  unfold terminator_room
  cases hstr : p.str with
  | none => trivial
  | some b =>
    obtain ⟨h1, h2⟩ := h b hstr
    obtain ⟨c, hc⟩ := strlen_of_mem h2
    have := strlen_lt hc
    simp only [hc]
    omega

/-! ## Runs of appends: contents and the number of growth steps -/

theorem increment_le_growth (p : astring) (curlen len : Nat) :
    p.add_size ≤ growth p curlen len := by
  unfold growth
  have := le_max_left (if p.add_size > 0 then p.add_size else 1024) len
  split_ifs at this ⊢ <;> omega

theorem growth_le_bound (p : astring) (curlen len : Nat) :
    growth p curlen len ≤ (if p.add_size > 0 then p.add_size else 1024) + len + 1 := by
  unfold growth
  have : max (if p.add_size > 0 then p.add_size else 1024) len ≤
      (if p.add_size > 0 then p.add_size else 1024) + len := max_le (by omega) (by omega)
  split_ifs at this ⊢ <;> omega

theorem run_all_of_run_count (steps : List Step) :
    ∀ (p q : astring) (k : Nat), run_count p steps = some (q, k) → run_all p steps = some q := by
  induction steps with
  | nil =>
    intro p q k h
    simp only [run_count, Option.some.injEq, Prod.mk.injEq] at h
    simp [run_all, h.1]
  | cons s ss ih =>
    intro p q k h
    simp only [run_count] at h
    cases hr : run p s.call s.calloc_res s.realloc_res with
    | none => simp [hr] at h
    | some o =>
      simp only [hr] at h
      cases hc : run_count o.p ss with
      | none => simp [hc] at h
      | some qk =>
        obtain ⟨q1, k1⟩ := qk
        simp only [hc, Option.some.injEq, Prod.mk.injEq] at h
        simp only [run_all, hr]
        rw [← h.1]
        exact ih o.p q1 k1 hc

/-- In a successful `astring_append` on a buffer whose storage is present, with sizes in
range, `grew` holds exactly when `astring_realloc` reports a positive number of bytes
added. -/
theorem grew_iff_realloc (p : astring) (b : Block) (s rest t : List Char)
    (c1 : Option Alloc) (a : Alloc) (o : Outcome)
    (hstr : p.str = some b) (hb : b.bytes = s ++ NUL :: rest) (hs : NUL ∉ s)
    (hcap : b.bytes.length = p.msize) (ht : NUL ∉ t)
    (hrange : p.msize + growth p s.length t.length < 2 ^ 63)
    (ho : astring_append p (cstr t) c1 (some a) = some o) :
    grew p o = true ↔ 0 < (astring_realloc p s.length t.length (some a)).ret := by
  obtain ⟨o1, _, _, ho1, _, _, _, _, _, hm⟩ :=
    astring_append_present p b s rest t c1 a hstr hb hs hcap ht hrange
  rw [ho] at ho1
  simp only [Option.some.injEq] at ho1
  subst ho1
  have hpos := growth_pos p s.length t.length
  have hge := len_le_growth p s.length t.length
  have hlen : s.length + 1 + rest.length = p.msize := by
    rw [← hcap, hb]; simp; omega
  by_cases h : s.length + t.length + 1 > p.msize
  · rw [if_pos h] at hm
    rw [(astring_realloc_amount p s.length t.length a h (by omega) hrange).1]
    simp only [grew, hstr, Option.isSome_some, Bool.true_and, decide_eq_true_eq]
    constructor
    · intro _; omega
    · intro _; omega
  · rw [if_neg h] at hm
    rw [astring_realloc_nogrow p s.length t.length (some a)
      (by rw [u64_of_lt (by omega)]; exact h)]
    simp only [grew, hstr, Option.isSome_some, Bool.true_and, decide_eq_true_eq]
    constructor
    · intro _; omega
    · intro h0; omega

/-- A run of successful appends on a buffer whose storage is present, with sizes in
range: the run is defined, the old text is followed by the fragments, and before the
`k`-th growth the capacity was at least `msize + (k - 1) * g` and too small for the text
appended so far. -/
theorem run_appends_present (g G : Nat) (hG : G = if g > 0 then g else 1024) (a : Alloc)
    (frags : List (List Char)) :
    ∀ (p : astring) (b : Block) (s rest : List Char),
      p.str = some b → b.bytes = s ++ NUL :: rest → NUL ∉ s → b.bytes.length = p.msize →
      p.add_size = g → (∀ t ∈ frags, NUL ∉ t) →
      p.msize + frags.length * (G + 1) + (frags.map List.length).sum < 2 ^ 63 →
      ∃ q k, run_count p (append_steps frags a) = some (q, k) ∧
        (1 ≤ k → p.msize + (k - 1) * g ≤ s.length + (frags.map List.length).sum) ∧
        contents q = some (s ++ frags.flatten) ∧
        astring_strlen q = some (s.length + (frags.map List.length).sum) := by
  induction frags with
  | nil =>
    intro p b s rest hstr hb hs _ _ _ _
    have hstr1 : p.str = some ⟨b.addr, s ++ [] ++ NUL :: rest⟩ := by
      rw [hstr, List.append_nil, ← hb]
    obtain ⟨h1, h2⟩ := contents_of_text p b.addr s [] rest hstr1 hs (by simp)
    exact ⟨p, 0, rfl, by omega, by simpa using h1, by simpa using h2⟩
  | cons t ts ih =>
    intro p b s rest hstr hb hs hcap hadd hfr hrange
    have ht : NUL ∉ t := hfr t (by simp)
    have hgb := growth_le_bound p s.length t.length
    have hgi := increment_le_growth p s.length t.length
    rw [hadd, ← hG] at hgb
    rw [hadd] at hgi
    simp only [List.length_cons, List.map_cons, List.sum_cons, Nat.succ_mul] at hrange
    obtain ⟨o, addr, rest1, ho, _, hstr1, hcap1, _, hadd1, hm⟩ :=
      astring_append_present p b s rest t (some a) a hstr hb hs hcap ht (by omega)
    obtain ⟨q, k, hq, hk, hc, hl⟩ := ih o.p ⟨addr, s ++ t ++ NUL :: rest1⟩ (s ++ t) rest1
      hstr1 rfl (by simp [hs, ht]) hcap1 (by rw [hadd1, hadd])
      (fun u hu => hfr u (by simp [hu])) (by rw [hm]; split_ifs <;> omega)
    simp only [List.length_append] at hk hl
    simp only [List.map_cons, List.sum_cons]
    refine ⟨q, if grew p o then k + 1 else k, ?_, ?_, ?_, ?_⟩
    · simp only [append_steps, List.map_cons, run_count, run, ho]
      simp only [append_steps] at hq
      rw [hq]
    · by_cases hgt : s.length + t.length + 1 > p.msize
      · rw [if_pos hgt] at hm
        have hgrew : grew p o = true := by
          simp only [grew, hstr, Option.isSome_some, Bool.true_and, decide_eq_true_eq]
          have := growth_pos p s.length t.length
          omega
        rw [hgrew, if_pos rfl]
        intro _
        rcases Nat.eq_zero_or_pos k with hk0 | hkpos
        · subst hk0
          simp
          omega
        · have h1 := hk hkpos
          obtain ⟨j, rfl⟩ : ∃ j, k = j + 1 := ⟨k - 1, by omega⟩
          simp only [Nat.add_sub_cancel] at h1 ⊢
          rw [Nat.succ_mul]
          omega
      · rw [if_neg hgt] at hm
        have hgrew : grew p o = false := by
          simp only [grew, hstr, Option.isSome_some, Bool.true_and, decide_eq_false_iff_not]
          omega
        rw [hgrew]
        simp only [Bool.false_eq_true, if_false]
        intro h1
        have := hk h1
        omega
    · rw [hc]; simp
    · rw [hl]; simp; omega

/-- Round trip from `astring_create` with a positive initial capacity, for every growth
increment `g` assigned to the buffer, when the sizes stay in range. -/
theorem append_roundtrip_positive (sz g : Nat) (a0 a : Alloc) (frags : List (List Char))
    (hsz : 0 < sz) (hfr : ∀ t ∈ frags, NUL ∉ t)
    (hrange : sz + frags.length * ((if g > 0 then g else 1024) + 1) +
      (frags.map List.length).sum < 2 ^ 63) :
    ∃ q, run_all { astring_create sz (some a0) with add_size := g } (append_steps frags a) =
        some q ∧
      contents q = some frags.flatten ∧
      astring_strlen q = some (frags.map List.length).sum := by
  obtain ⟨k, rfl⟩ : ∃ k, sz = k + 1 := ⟨sz - 1, by omega⟩
  obtain ⟨q, n, hq, _, hc, hl⟩ := run_appends_present g _ rfl a frags
    { astring_create (k + 1) (some a0) with add_size := g }
    ⟨a0.addr, List.replicate (k + 1) NUL⟩ [] (List.replicate k NUL)
    (by simp [astring_create, calloc]) (by simp [List.replicate_succ]) (by simp)
    (by simp [astring_create]) rfl hfr hrange
  exact ⟨q, run_all_of_run_count _ _ q n hq, by simpa using hc, by simpa using hl⟩

/-! ## The claims -/

set_option maxRecDepth 100000 in
/-- C1: after `astring_create(p, 0)` the appends of `ab`, `cd` and `ef`, no allocation
failing, leave a buffer whose storage pointer is absent: `astring_string` yields nothing
and `astring_strlen` reports 0, not `abcdef` and 6. -/
theorem roundtrip_from_zero_capacity_is_lost :
    run_all fresh_zero
        (append_steps ["ab".toList, "cd".toList, "ef".toList] (at_addr 16)) =
      some { fresh_zero with msize := 128 } ∧
    astring_string { fresh_zero with msize := 128 } = none ∧
    contents { fresh_zero with msize := 128 } = none ∧
    astring_strlen { fresh_zero with msize := 128 } = some 0 := by
  decide

/-- C2 as stated fails: on the buffer holding `ab` in a storage of 4 bytes, with the
growth increment set to `2 ^ 64 - 2`, `astring_append` of `cdef` with `realloc`
succeeding returns 0, not 6: the new size `4 + (2 ^ 64 - 2)` wraps around to 2, the
storage is cut to 2 bytes and loses its terminator, and the amount added is negative as
a `long`.  And on the empty buffer of capacity 4 with the growth increment `2 ^ 64 - 1`
the amount to add wraps around to 0, the capacity stays 4 and `astring_append` of `hello`
writes past the storage. -/
theorem append_fails_for_huge_increment :
    (astring_append { small_ab with add_size := 2 ^ 64 - 2 } (cstr "cdef".toList) none
        (some (at_addr 32))).map (fun o => (o.ret, o.p.msize, o.p.str, contents o.p)) =
      some (0, 2, some ⟨32, "ab".toList⟩, none) ∧
    contents { astring_create 4 (some (at_addr 16)) with add_size := 2 ^ 64 - 1 } = some [] ∧
    astring_append { astring_create 4 (some (at_addr 16)) with add_size := 2 ^ 64 - 1 }
      (cstr "hello".toList) none (some (at_addr 32)) = none := by
  decide

/-- C2, amended: on a buffer whose storage is present and holds the text `s`, when the
capacity plus the amount `astring_realloc` adds for `t` is below `2 ^ 63`, a successful
`astring_append` of a NUL-free text `t` returns `|s| + |t|`, leaves the contents `s ++ t`
and the length `astring_strlen` equal to the value returned, and the first `|s|` bytes
of the storage are still `s`, whether or not the storage was reallocated. -/
theorem append_preserves_content (p : astring) (b : Block) (s rest t : List Char)
    (c1 : Option Alloc) (a : Alloc)
    (hstr : p.str = some b) (hb : b.bytes = s ++ NUL :: rest) (hs : NUL ∉ s)
    (hcap : b.bytes.length = p.msize) (ht : NUL ∉ t)
    (hrange : p.msize + growth p s.length t.length < 2 ^ 63) :
    ∃ o, astring_append p (cstr t) c1 (some a) = some o ∧
      o.ret = s.length + t.length ∧
      contents o.p = some (s ++ t) ∧
      astring_strlen o.p = some o.ret ∧
      ∃ b1, astring_string o.p = some b1 ∧ b1.bytes.take s.length = s := by
  obtain ⟨o, addr, rest1, ho, hret, hstr1, _, _, _, _⟩ :=
    astring_append_present p b s rest t c1 a hstr hb hs hcap ht hrange
  obtain ⟨h1, h2⟩ := contents_of_text o.p addr s t rest1 hstr1 hs ht
  refine ⟨o, ho, hret, h1, ?_, ⟨addr, s ++ t ++ NUL :: rest1⟩, hstr1, ?_⟩
  · rw [h2, hret]
  · simp [List.append_assoc]

theorem append_preserves_content_witness :
    (small_ab.str = some ⟨16, "ab".toList ++ NUL :: [NUL]⟩ ∧ small_ab.msize = 4 ∧
      small_ab.msize + growth small_ab "ab".toList.length "cdef".toList.length < 2 ^ 63) ∧
    ∃ o, astring_append small_ab (cstr "cdef".toList) none (some (at_addr 32)) = some o ∧
      o.ret = "ab".toList.length + "cdef".toList.length ∧
      contents o.p = some ("ab".toList ++ "cdef".toList) ∧
      astring_strlen o.p = some o.ret ∧
      ∃ b1, astring_string o.p = some b1 ∧ b1.bytes.take "ab".toList.length = "ab".toList :=
  ⟨by decide,
   append_preserves_content small_ab ⟨16, "ab".toList ++ NUL :: [NUL]⟩ "ab".toList [NUL]
    "cdef".toList none (at_addr 32) (by decide) (by decide) (by decide) (by decide)
    (by decide) (by decide)⟩

set_option maxRecDepth 100000 in
/-- C3: after `astring_create(p, 0)` an `astring_append` of 200 bytes sets `msize` to 201
and the following `astring_append` of `x` sets it to 128: the capacity field decreased
across a call. -/
theorem capacity_decreases_after_zero_create :
    astring_append fresh_zero (cstr (List.replicate 200 (Char.ofNat 97)))
        (some (at_addr 16)) (some (at_addr 32)) =
      some ⟨200, { fresh_zero with msize := 201 }, []⟩ ∧
    astring_append { fresh_zero with msize := 201 } (cstr "x".toList)
        (some (at_addr 16)) (some (at_addr 32)) =
      some ⟨1, { fresh_zero with msize := 128 }, []⟩ ∧
    ({ fresh_zero with msize := 128 } : astring).msize <
      ({ fresh_zero with msize := 201 } : astring).msize := by
  decide

/-- C5 as stated fails: `four_ab` is the state after `astring_create(&p, 4)` and
`astring_append(p, "ab")`.  There `astring_appendf(p, 2 ^ 64 - 2, "%s", "hello")` finds
`2 + (2 ^ 64 - 2) + 1` wrapped around to 1, within the capacity 4, so it does not grow
the storage, and `vsnprintf` writes the 6 bytes of `hello` and its terminator at offset
2 of the 4 bytes: the call writes past the storage, content length plus one would be 8. -/
theorem terminator_room_fails_for_huge_length :
    (run (astring_create 4 (some (at_addr 16))) (Call.append (cstr "ab".toList))
      (some (at_addr 24)) (some (at_addr 32))).map (fun o => o.p) = some four_ab ∧
    u64 (2 + (2 ^ 64 - 2) + 1) = 1 ∧
    astring_realloc four_ab 2 (2 ^ 64 - 2) (some (at_addr 32)) = ⟨0, four_ab, []⟩ ∧
    poke [Char.ofNat 97, Char.ofNat 98, NUL, NUL] 2 ("hello".toList ++ [NUL]) = none ∧
    run four_ab (Call.appendf (2 ^ 64 - 2) (cstr "%s".toList) "hello".toList) none
      (some (at_addr 32)) = none := by
  decide

/-- C5, amended: in every state reachable from `astring_create` by assignments to the
growth increment and the logging fields and by calls of `astring_append`,
`astring_appendf` and `astring_appendf_safe` on strings, with sizes in range and any
answers of the allocator, the storage, when present, holds a C string whose length plus
one is at most `msize`; and every further such call is defined, its writes staying
inside the storage, and leaves a state with the same property. -/
theorem terminator_room_invariant (p : astring) (h : Reachable p) :
    terminator_room p ∧
    ∀ (c : Call) (c1 c2 : Option Alloc), admissible p c →
      ∃ o, run p c c1 c2 = some o ∧ terminator_room o.p := by
  have hok := reachable_storage_ok p h
  refine ⟨terminator_room_of_ok p hok, ?_⟩
  intro c c1 c2 hadm
  obtain ⟨o, ho, hok1, _⟩ := run_safe p c c1 c2 hok hadm
  exact ⟨o, ho, terminator_room_of_ok o.p hok1⟩

theorem terminator_room_invariant_witness :
    terminator_room (astring_create 4 (some (at_addr 16))) ∧
    ∃ o, run (astring_create 4 (some (at_addr 16)))
        (Call.appendf 3 (cstr "%s".toList) "hello".toList) none (some (at_addr 32)) = some o ∧
      terminator_room o.p :=
  ⟨(terminator_room_invariant _ (Reachable.create 4 (some (at_addr 16)))).1,
   (terminator_room_invariant _ (Reachable.create 4 (some (at_addr 16)))).2
    (Call.appendf 3 (cstr "%s".toList) "hello".toList) none (some (at_addr 32))
    ⟨2, by decide, by unfold in_range; decide⟩⟩

set_option maxRecDepth 100000 in
/-- C6: on the buffer made by `astring_create(p, 0)` the length is 0 and there are no
contents; the first `astring_append` of `x`, no allocation failing, returns 1 and sets
`msize` to 128, but the storage pointer is still absent afterwards, so `astring_strlen`
still reports 0 and `astring_string` yields nothing. -/
theorem first_append_on_empty_is_lost :
    astring_strlen fresh_zero = some 0 ∧
    contents fresh_zero = none ∧
    astring_append fresh_zero (cstr "x".toList)
        (some (at_addr 16)) (some (at_addr 32)) =
      some ⟨1, { fresh_zero with msize := 128 }, []⟩ ∧
    astring_strlen { fresh_zero with msize := 128 } = some 0 ∧
    astring_string { fresh_zero with msize := 128 } = none := by
  decide

/-- C9: when the storage is present, holds the text `s` and `|s| + |t| + 1` is within the
capacity, `astring_realloc` reports 0 bytes added and leaves the buffer as it is, and
`astring_append` of the NUL-free text `t` keeps `msize` and the address of the storage and
emits no diagnostic, whatever the allocator would have answered. -/
theorem noop_growth (p : astring) (b : Block) (s rest t : List Char)
    (c1 c2 : Option Alloc)
    (hstr : p.str = some b) (hb : b.bytes = s ++ NUL :: rest) (hs : NUL ∉ s)
    (hcap : b.bytes.length = p.msize) (ht : NUL ∉ t)
    (hfit : s.length + t.length + 1 ≤ p.msize) :
    astring_realloc p s.length t.length c2 = ⟨0, p, []⟩ ∧
    ∃ o, astring_append p (cstr t) c1 c2 = some o ∧
      o.p.msize = p.msize ∧ o.p.str.map Block.addr = some b.addr ∧ o.log = [] ∧
      o.ret = s.length + t.length ∧ contents o.p = some (s ++ t) := by
  have hlen : s.length + 1 + rest.length = p.msize := by
    rw [← hcap, hb]; simp; omega
  have h : ¬ s.length + t.length + 1 > p.msize := by omega
  have hw : ¬ u64 (s.length + t.length + 1) > p.msize := by
    have := u64_le (s.length + t.length + 1)
    omega
  constructor
  · exact astring_realloc_nogrow p s.length t.length c2 hw
  · unfold astring_append
    simp only [strlen_cstr t ht, hstr, hb, strlen_append_nul s rest hs]
    unfold astring_append_tail
    rw [if_neg h, hb, strncat_cstr s rest t hs ht (by omega)]
    refine ⟨_, rfl, ?_, ?_, rfl, rfl, ?_⟩
    · simp [store]
    · simp [store]
    · have hl := strlen_text s t (List.drop t.length rest) hs ht
      simp only [contents, astring_string, store, Option.map_some', if_true, hl]
      rw [← List.length_append, List.take_left']
      rfl

theorem noop_growth_witness :
    (small_ab.str = some ⟨16, "ab".toList ++ NUL :: [NUL]⟩ ∧
      "ab".toList.length + "c".toList.length + 1 ≤ small_ab.msize) ∧
    (astring_realloc small_ab "ab".toList.length "c".toList.length none = ⟨0, small_ab, []⟩ ∧
     ∃ o, astring_append small_ab (cstr "c".toList) none none = some o ∧
      o.p.msize = small_ab.msize ∧ o.p.str.map Block.addr = some 16 ∧ o.log = [] ∧
      o.ret = "ab".toList.length + "c".toList.length ∧
      contents o.p = some ("ab".toList ++ "c".toList)) :=
  ⟨by decide,
   noop_growth small_ab ⟨16, "ab".toList ++ NUL :: [NUL]⟩ "ab".toList [NUL] "c".toList
    none none (by decide) (by decide) (by decide) (by decide) (by decide) (by decide)⟩

/-- C10 as stated fails: a rendered text may hold a NUL.  For the one byte `\0` (the
format `%c` with the argument 0) on the buffer `ab`, `astring_appendf_safe` returns 3,
the length `vasprintf` reports added to 2, while `astring_append` of the same bytes
returns 2. -/
theorem appendf_safe_differs_on_nul :
    (astring_appendf_safe small_ab (some (48, [NUL])) (some (at_addr 24))
        (some (at_addr 32))).map (fun o => o.ret) = some 3 ∧
    (astring_append small_ab (cstr [NUL]) (some (at_addr 24))
        (some (at_addr 32))).map (fun o => o.ret) = some 2 := by
  decide

/-- C10, amended: for every buffer, every answer of the allocator and every rendered text
`r` without NUL (held by the temporary that `vasprintf` allocated),
`astring_appendf_safe` returns the same value and leaves the same buffer as
`astring_append` of the C string `r`: both are undefined together, or both return with
equal value and equal buffer. -/
theorem appendf_safe_refines_append (p : astring) (tmp : Nat) (r : List Char)
    (c1 c2 : Option Alloc) (hr : NUL ∉ r) :
    (astring_appendf_safe p (some (tmp, r)) c1 c2).map (fun o => (o.ret, o.p)) =
      (astring_append p (cstr r) c1 c2).map (fun o => (o.ret, o.p)) := by
  unfold astring_appendf_safe astring_append
  simp only [strlen_cstr r hr]
  cases hstr : p.str with
  | none =>
    simp only
    cases hc : calloc (if r.length + 1 < 128 then 128 else r.length + 1) c1 with
    | none => simp
    | some b => exact appendf_safe_tail_eq _ b false 0 r.length tmp (cstr r) c2
  | some b =>
    simp only
    cases hl : strlen b.bytes with
    | none => rfl
    | some curlen => exact appendf_safe_tail_eq p b true curlen r.length tmp (cstr r) c2

theorem appendf_safe_refines_append_witness :
    NUL ∉ "cdef".toList ∧
    (astring_appendf_safe small_ab (some (48, "cdef".toList)) none (some (at_addr 32))).map
        (fun o => (o.ret, o.p)) =
      (astring_append small_ab (cstr "cdef".toList) none (some (at_addr 32))).map
        (fun o => (o.ret, o.p)) :=
  ⟨by decide,
   appendf_safe_refines_append small_ab 48 "cdef".toList none (some (at_addr 32)) (by decide)⟩

set_option maxRecDepth 100000 in
/-- C11 as stated fails for `astring_appendf`: with the expected length `2 ^ 64 - 1` on a
buffer whose storage is unallocated, `len + 1` wraps around to 0 and `msize` is set to
128, not to `max (n + 1) 128`. -/
theorem first_allocation_fails_for_max_length :
    (astring_appendf fresh_zero (2 ^ 64 - 1) (cstr "%s".toList) "hello".toList
        (some (at_addr 16)) (some (at_addr 32))).map (fun o => o.p.msize) = some 128 ∧
    128 ≠ max (max 2 (2 ^ 64 - 1) + 1) 128 := by
  decide

/-- C11, amended: on a buffer whose storage is unallocated, when `calloc` succeeds,
`astring_append` of a text of length `n` sets `msize` to `max (n + 1) 128`,
`astring_appendf_safe` does so for the rendered length, and `astring_appendf` for the
effective expected length (the larger of the expected length and the template length)
when that is below `2 ^ 64 - 1`; the growth increment and the answer `realloc` would give
play no part, and `astring_append` emits no diagnostic. -/
theorem first_allocation_sizing (p : astring) (t fmt r rs : List Char) (n flen tmp : Nat)
    (a : Alloc) (c2 : Option Alloc)
    (hstr : p.str = none) (ht : NUL ∉ t) (hfmt : strlen fmt = some flen)
    (hn : max flen n + 1 < 2 ^ 64) :
    (∃ o, astring_append p (cstr t) (some a) c2 = some o ∧
      o.p.msize = max (t.length + 1) 128 ∧ o.log = []) ∧
    (∃ o, astring_appendf_safe p (some (tmp, rs)) (some a) c2 = some o ∧
      o.p.msize = max (rs.length + 1) 128 ∧ o.log = [Event.free tmp]) ∧
    (∃ o, astring_appendf p n fmt r (some a) c2 = some o ∧
      o.p.msize = max (max flen n + 1) 128) := by
  refine ⟨⟨_, astring_append_absent p t [] a c2 hstr ht, rfl, rfl⟩,
    ⟨_, astring_appendf_safe_absent p tmp rs a c2 hstr, rfl, rfl⟩, ?_⟩
  obtain ⟨log, h⟩ := astring_appendf_absent p n flen fmt r a c2 hstr hfmt
  refine ⟨_, h, ?_⟩
  simp only [floor_eq_max, u64_of_lt hn]

theorem first_allocation_sizing_witness :
    (fresh_zero.str = none ∧ strlen (cstr "%s".toList) = some 2 ∧
      max 2 300 + 1 < 2 ^ 64) ∧
    ((∃ o, astring_append fresh_zero (cstr "x".toList) (some (at_addr 16)) none = some o ∧
      o.p.msize = max ("x".toList.length + 1) 128 ∧ o.log = []) ∧
    (∃ o, astring_appendf_safe fresh_zero (some (48, "hello".toList)) (some (at_addr 16))
        none = some o ∧
      o.p.msize = max ("hello".toList.length + 1) 128 ∧ o.log = [Event.free 48]) ∧
    (∃ o, astring_appendf fresh_zero 300 (cstr "%s".toList) "hello".toList
        (some (at_addr 16)) none = some o ∧
      o.p.msize = max (max 2 300 + 1) 128)) :=
  ⟨by decide,
   first_allocation_sizing fresh_zero "x".toList (cstr "%s".toList) "hello".toList
    "hello".toList 300 2 48 (at_addr 16) none (by decide) (by decide) (by decide)
    (by decide)⟩

/-- C12 as stated fails in two ways.  With growth increment 0, current length 2 and
incoming length 4 on a capacity of 4, a successful `astring_realloc` returns 1024 and
sets the capacity to 1028, not `max 0 4 = 4` and 8.  And with growth increment 2, current
length 2 and incoming length `2 ^ 64 - 4` on a capacity of 8, the new size wraps around:
the call returns `-4` and sets the capacity to 4. -/
theorem growth_amount_fails :
    2 + 4 + 1 > ({ small_ab with add_size := 0 } : astring).msize ∧
    (astring_realloc { small_ab with add_size := 0 } 2 4 (some (at_addr 32))).ret = 1024 ∧
    (astring_realloc { small_ab with add_size := 0 } 2 4 (some (at_addr 32))).p.msize = 1028 ∧
    (astring_realloc { small_ab with add_size := 0 } 2 4 (some (at_addr 32))).ret ≠
      ((max ({ small_ab with add_size := 0 } : astring).add_size 4 : Nat) : Int) ∧
    2 + (2 ^ 64 - 4) + 1 > eight_ab.msize ∧
    (astring_realloc eight_ab 2 (2 ^ 64 - 4) (some (at_addr 32))).ret = -4 ∧
    (astring_realloc eight_ab 2 (2 ^ 64 - 4) (some (at_addr 32))).p.msize = 4 := by
  decide

/-- C12, amended: when `curlen + len + 1` exceeds the capacity `m` and the sizes stay in
range (`curlen + len + 1` below `2 ^ 64`, `m + added` below `2 ^ 63`), a successful
`astring_realloc` returns `added = max g len`, plus 1 when `curlen = 0`, where `g` is the
growth increment if that is positive and 1024 if it is 0, and sets the capacity to
`m + added`. -/
theorem growth_amount (p : astring) (curlen len : Nat) (a : Alloc)
    (h : curlen + len + 1 > p.msize) (hsum : curlen + len + 1 < 2 ^ 64)
    (hrange : p.msize + growth p curlen len < 2 ^ 63) :
    (astring_realloc p curlen len (some a)).ret =
      ((max (if p.add_size > 0 then p.add_size else 1024) len +
        (if curlen = 0 then 1 else 0) : Nat) : Int) ∧
    (astring_realloc p curlen len (some a)).p.msize =
      p.msize + (max (if p.add_size > 0 then p.add_size else 1024) len +
        (if curlen = 0 then 1 else 0)) := by
  obtain ⟨h1, h2, _⟩ := astring_realloc_amount p curlen len a h hsum hrange
  exact ⟨h1, h2⟩

theorem growth_amount_witness :
    (2 + 4 + 1 > small_ab.msize ∧ 2 + 4 + 1 < 2 ^ 64 ∧
      small_ab.msize + growth small_ab 2 4 < 2 ^ 63) ∧
    ((astring_realloc small_ab 2 4 (some (at_addr 32))).ret =
      ((max (if small_ab.add_size > 0 then small_ab.add_size else 1024) 4 +
        (if 2 = 0 then 1 else 0) : Nat) : Int) ∧
    (astring_realloc small_ab 2 4 (some (at_addr 32))).p.msize =
      small_ab.msize + (max (if small_ab.add_size > 0 then small_ab.add_size else 1024) 4 +
        (if 2 = 0 then 1 else 0))) :=
  ⟨by decide, growth_amount small_ab 2 4 (at_addr 32) (by decide) (by decide) (by decide)⟩

set_option maxRecDepth 100000 in
/-- C15: `astring_appendf_safe` on a buffer whose storage is absent, the text rendered
into the temporary at address 48 and the `calloc` of the first allocation failing,
returns 0 after the error diagnostic without releasing the temporary; when the `realloc`
fails, and on the normal return, the temporary is released once. -/
theorem temporary_leaks_on_calloc_failure :
    astring_appendf_safe { fresh_zero with error_logger := true } (some (48, "x".toList))
        none (some (at_addr 32)) =
      some ⟨0, { fresh_zero with error_logger := true },
        [Event.error "Failed allocating memory.\n" []]⟩ ∧
    (((astring_appendf_safe { fresh_zero with error_logger := true }
        (some (48, "x".toList)) none (some (at_addr 32))).map
          fun o => o.log.count (Event.free 48)) = some 0) ∧
    (((astring_appendf_safe small_ab (some (48, "cdef".toList)) none none).map
          fun o => (o.ret, o.log.count (Event.free 48))) = some (0, 1)) ∧
    (((astring_appendf_safe small_ab (some (48, "cdef".toList)) none
        (some (at_addr 32))).map
          fun o => (o.ret, o.log.count (Event.free 48))) = some (6, 1)) ∧
    (((astring_appendf_safe fresh_zero (some (48, "x".toList)) (some (at_addr 16))
        none).map
          fun o => (o.ret, o.log.count (Event.free 48))) = some (1, 1)) := by
  decide

/-- C16 as stated fails: on the buffer `ab` with capacity 8, for the incoming length
`2 ^ 64 - 4` (which `astring_appendf` passes on when it is the expected length), the new
size `8 + (2 ^ 64 - 4)` wraps around to 4: a successful `astring_realloc` returns `-4`
and leaves the capacity 4, far below `c + n + 1`. -/
theorem single_growth_fails_for_huge_length :
    2 + 1 ≤ eight_ab.msize ∧
    (astring_realloc eight_ab 2 (2 ^ 64 - 4) (some (at_addr 32))).ret = -4 ∧
    (astring_realloc eight_ab 2 (2 ^ 64 - 4) (some (at_addr 32))).p.msize = 4 ∧
    ¬ 2 + (2 ^ 64 - 4) + 1 ≤
      (astring_realloc eight_ab 2 (2 ^ 64 - 4) (some (at_addr 32))).p.msize := by
  decide

/-- C16, amended: on a buffer whose storage is present, of `msize` bytes, with a content
length `c` such that `c + 1 <= msize`, with sizes in range (the capacity plus the amount
`astring_realloc` adds for `n` is below `2 ^ 63`), after a successful
`astring_realloc(p, c, n)` the capacity is at least `c + n + 1`, whatever the growth
increment; the storage has that many bytes and still starts with the old bytes, so
writing `n` bytes and a terminator at offset `c` stays inside it. -/
theorem single_growth_suffices (p : astring) (b : Block) (c n : Nat) (a : Alloc)
    (hstr : p.str = some b) (hcap : b.bytes.length = p.msize) (hc : c + 1 ≤ p.msize)
    (hrange : p.msize + growth p c n < 2 ^ 63) :
    c + n + 1 ≤ (astring_realloc p c n (some a)).p.msize ∧
    0 ≤ (astring_realloc p c n (some a)).ret ∧
    ∃ b1, (astring_realloc p c n (some a)).p.str = some b1 ∧
      b1.bytes.length = (astring_realloc p c n (some a)).p.msize ∧
      b1.bytes.take p.msize = b.bytes ∧
      ∀ w : List Char, w.length = n + 1 → ∃ d, poke b1.bytes c w = some d := by
  have hge := len_le_growth p c n
  by_cases h : c + n + 1 > p.msize
  · obtain ⟨junk, hj, hret, hp⟩ := astring_realloc_grow p b c n a hstr hcap h (by omega) hrange
    rw [hret, hp]
    refine ⟨by simp only []; omega, by omega, ⟨a.addr, b.bytes ++ junk⟩, rfl, ?_, ?_, ?_⟩
    · simp [hcap, hj]
    · rw [← hcap]
      simp
    · intro w hw
      exact poke_defined _ w c (by simp [hcap, hj, hw]; omega)
  · have hz : astring_realloc p c n (some a) = ⟨0, p, []⟩ :=
      astring_realloc_nogrow p c n (some a) (by
        have := u64_le (c + n + 1)
        omega)
    rw [hz]
    refine ⟨by simp only []; omega, by simp, b, hstr, hcap, ?_, ?_⟩
    · rw [← hcap]
      simp
    · intro w hw
      exact poke_defined _ w c (by rw [hcap, hw]; omega)

theorem single_growth_suffices_witness :
    (small_ab.str = some ⟨16, "ab".toList ++ NUL :: [NUL]⟩ ∧ 2 + 1 ≤ small_ab.msize ∧
      small_ab.msize + growth small_ab 2 7 < 2 ^ 63) ∧
    (2 + 7 + 1 ≤ (astring_realloc small_ab 2 7 (some (at_addr 32))).p.msize ∧
    0 ≤ (astring_realloc small_ab 2 7 (some (at_addr 32))).ret ∧
    ∃ b1, (astring_realloc small_ab 2 7 (some (at_addr 32))).p.str = some b1 ∧
      b1.bytes.length = (astring_realloc small_ab 2 7 (some (at_addr 32))).p.msize ∧
      b1.bytes.take small_ab.msize = "ab".toList ++ NUL :: [NUL] ∧
      ∀ w : List Char, w.length = 7 + 1 → ∃ d, poke b1.bytes 2 w = some d) :=
  ⟨by decide,
   single_growth_suffices small_ab ⟨16, "ab".toList ++ NUL :: [NUL]⟩ 2 7 (at_addr 32)
    (by decide) (by decide) (by decide) (by decide)⟩

/-- C17 as stated fails: with `add_size` 0 on the buffer `ab` with capacity 8, for the
incoming length `2 ^ 64 - 4` the new size wraps around: a successful `astring_realloc`
returns `-4` and leaves the capacity 4; the capacity has not grown by
`max 1024 (2 ^ 64 - 4)`. -/
theorem zero_increment_fails_for_huge_length :
    ({ eight_ab with add_size := 0 } : astring).add_size = 0 ∧
    2 + (2 ^ 64 - 4) + 1 > ({ eight_ab with add_size := 0 } : astring).msize ∧
    (astring_realloc { eight_ab with add_size := 0 } 2 (2 ^ 64 - 4)
      (some (at_addr 32))).ret = -4 ∧
    (astring_realloc { eight_ab with add_size := 0 } 2 (2 ^ 64 - 4)
      (some (at_addr 32))).p.msize = 4 ∧
    4 ≠ ({ eight_ab with add_size := 0 } : astring).msize + max 1024 (2 ^ 64 - 4) := by
  decide

/-- C17, amended: when the growth increment `add_size` is 0, `curlen + len + 1` exceeds
the capacity and the sizes stay in range (`curlen + len + 1` below `2 ^ 64`, the capacity
plus the amount below `2 ^ 63`), a successful `astring_realloc` returns `max 1024 len`,
plus 1 when `curlen` is 0, and adds that to the capacity; value returned, capacity and
storage are those obtained with `add_size` set to 1024. -/
theorem zero_increment_is_1024 (p : astring) (curlen len : Nat) (a : Alloc)
    (hz : p.add_size = 0) (h : curlen + len + 1 > p.msize)
    (hsum : curlen + len + 1 < 2 ^ 64)
    (hrange : p.msize + growth p curlen len < 2 ^ 63) :
    (astring_realloc p curlen len (some a)).ret =
      ((max 1024 len + (if curlen = 0 then 1 else 0) : Nat) : Int) ∧
    (astring_realloc p curlen len (some a)).p.msize =
      p.msize + (max 1024 len + (if curlen = 0 then 1 else 0)) ∧
    (astring_realloc p curlen len (some a)).ret =
      (astring_realloc { p with add_size := 1024 } curlen len (some a)).ret ∧
    (astring_realloc p curlen len (some a)).p.msize =
      (astring_realloc { p with add_size := 1024 } curlen len (some a)).p.msize ∧
    (astring_realloc p curlen len (some a)).p.str =
      (astring_realloc { p with add_size := 1024 } curlen len (some a)).p.str := by
  have g1 : growth p curlen len = max 1024 len + (if curlen = 0 then 1 else 0) := by
    simp [growth, hz]
  have g2 : growth { p with add_size := 1024 } curlen len =
      max 1024 len + (if curlen = 0 then 1 else 0) := by
    simp [growth]
  obtain ⟨h1, h2, _, s1⟩ := astring_realloc_amount p curlen len a h hsum hrange
  obtain ⟨k1, k2, _, s2⟩ := astring_realloc_amount { p with add_size := 1024 } curlen len a
    h hsum (by rw [g2, ← g1]; exact hrange)
  rw [g1] at h1 h2 s1
  rw [g2] at k1 k2 s2
  exact ⟨h1, h2, by rw [h1, k1], by rw [h2, k2], by rw [s1, s2]⟩

theorem zero_increment_is_1024_witness :
    (({ small_ab with add_size := 0 } : astring).add_size = 0 ∧
      2 + 4 + 1 > ({ small_ab with add_size := 0 } : astring).msize ∧
      2 + 4 + 1 < 2 ^ 64 ∧
      ({ small_ab with add_size := 0 } : astring).msize +
        growth { small_ab with add_size := 0 } 2 4 < 2 ^ 63) ∧
    ((astring_realloc { small_ab with add_size := 0 } 2 4 (some (at_addr 32))).ret =
      ((max 1024 4 + (if 2 = 0 then 1 else 0) : Nat) : Int) ∧
    (astring_realloc { small_ab with add_size := 0 } 2 4 (some (at_addr 32))).p.msize =
      ({ small_ab with add_size := 0 } : astring).msize +
        (max 1024 4 + (if 2 = 0 then 1 else 0)) ∧
    (astring_realloc { small_ab with add_size := 0 } 2 4 (some (at_addr 32))).ret =
      (astring_realloc { { small_ab with add_size := 0 } with add_size := 1024 } 2 4
        (some (at_addr 32))).ret ∧
    (astring_realloc { small_ab with add_size := 0 } 2 4 (some (at_addr 32))).p.msize =
      (astring_realloc { { small_ab with add_size := 0 } with add_size := 1024 } 2 4
        (some (at_addr 32))).p.msize ∧
    (astring_realloc { small_ab with add_size := 0 } 2 4 (some (at_addr 32))).p.str =
      (astring_realloc { { small_ab with add_size := 0 } with add_size := 1024 } 2 4
        (some (at_addr 32))).p.str) :=
  ⟨by decide,
   zero_increment_is_1024 { small_ab with add_size := 0 } 2 4 (at_addr 32) rfl (by decide)
    (by decide) (by decide)⟩

/-- C18 as stated fails: on the buffer `ab` with the growth increment `2 ^ 64 - 2`,
`astring_append` of `cdef` with `realloc` succeeding returns 0 although neither the old
content nor the text is empty. -/
theorem zero_return_fails_for_huge_increment :
    astring_strlen { small_ab with add_size := 2 ^ 64 - 2 } = some 2 ∧
    (astring_append { small_ab with add_size := 2 ^ 64 - 2 } (cstr "cdef".toList)
        (some (at_addr 24)) (some (at_addr 32))).map (fun o => o.ret) = some 0 := by
  decide

/-- C18, amended: a successful `astring_append` of a NUL-free text `t` on a well-formed
buffer, with sizes in range, returns 0 exactly when the length of the buffer before the
call is 0 and `t` is empty; the buffer it leaves is well formed.  So 0 is returned by
calls that did not fail: the append of the empty text to a buffer created with a
positive capacity is one. -/
theorem zero_return_iff_empty (p : astring) (t : List Char) (a1 a2 : Alloc)
    (hok : storage_ok p) (ht : NUL ∉ t) (hrange : in_range p t.length) :
    ∃ o, astring_append p (cstr t) (some a1) (some a2) = some o ∧
      (o.ret = 0 ↔ (astring_strlen p = some 0 ∧ t = [])) ∧
      storage_ok o.p := by
  cases hstr : p.str with
  | none =>
    refine ⟨_, astring_append_absent p t [] a1 (some a2) hstr ht, ?_, ?_⟩
    · simp [astring_strlen, hstr]
    · exact storage_ok_of_absent _ hstr
  | some b =>
    obtain ⟨hcap, hmem⟩ := hok b hstr
    obtain ⟨c, hc⟩ := strlen_of_mem hmem
    obtain ⟨s, rest, hb, hs, hsl⟩ := strlen_split hc
    have hz := growth_le_zero p s.length t.length
    unfold in_range at hrange
    obtain ⟨o, addr, rest1, ho, hret, hstr1, hcap1, _, _, _⟩ :=
      astring_append_present p b s rest t (some a1) a2 hstr hb hs hcap ht (by omega)
    refine ⟨o, ho, ?_, storage_ok_of_norm o.p addr _ hstr1 hcap1 (by simp)⟩
    simp only [astring_strlen, hstr, hc, hret, Option.some.injEq]
    rw [← hsl]
    constructor
    · intro h
      exact ⟨by omega, List.length_eq_zero.1 (by omega)⟩
    · rintro ⟨h1, h2⟩
      rw [h1, h2]
      rfl

theorem zero_return_iff_empty_witness :
    (NUL ∉ ([] : List Char) ∧ in_range (astring_create 4 (some (at_addr 16))) 0) ∧
    ∃ o, astring_append (astring_create 4 (some (at_addr 16))) (cstr [])
        (some (at_addr 24)) (some (at_addr 32)) = some o ∧
      o.ret = 0 ∧ storage_ok o.p := by
  have hr : in_range (astring_create 4 (some (at_addr 16))) 0 := by
    unfold in_range
    decide
  obtain ⟨o, ho, hiff, hok⟩ := zero_return_iff_empty (astring_create 4 (some (at_addr 16)))
    [] (at_addr 24) (at_addr 32)
    (reachable_storage_ok _ (Reachable.create 4 (some (at_addr 16)))) (by decide) hr
  exact ⟨⟨by decide, hr⟩, o, ho, hiff.2 ⟨by decide, rfl⟩, hok⟩

end Astring
